import Mathlib

/-!
Verification of the name-to-record resolution and test-type normalization
pipeline of the SHL assessment recommendation service
(`app/core/logic.py`, class `RecommendationEngine`).

The embedding works over `List Char` so that every definition is a plain
structurally recursive function the kernel can evaluate.  Python regular
expression substitutions are embedded as dedicated scanning functions that
mirror the leftmost-match semantics of `re.sub` for the concrete patterns
appearing in the source.  The model covers ASCII whitespace, digits and
case folding; this is the fragment exercised by the catalog data and by
every theorem below.
-/

namespace SHL

/-! ## Python string primitives -/

/-- ASCII fragment of the character class that `str.strip()` and the regex
class `\s` treat as whitespace in Python. -/
def pyIsSpace (c : Char) : Bool :=
  c == ' ' || c == '\t' || c == '\n' || c == '\r' ||
  c == Char.ofNat 11 || c == Char.ofNat 12

/-- `str.strip(chars)`: drop characters satisfying `p` from both ends. -/
def stripBoth (p : Char → Bool) (cs : List Char) : List Char :=
  ((cs.dropWhile p).reverse.dropWhile p).reverse

/-- `str.strip()` on a character list. -/
def stripWs (cs : List Char) : List Char := stripBoth pyIsSpace cs

/-- `str.strip()` on a `String`. -/
def stripWsStr (s : String) : String := String.mk (stripWs s.toList)

/-- Remove trailing whitespace only. -/
def rstripWs (cs : List Char) : List Char :=
  (cs.reverse.dropWhile pyIsSpace).reverse

/-- `str.split(sep)` for a single-character separator, Python semantics:
`"".split(c) == [""]` and separators delimit possibly empty fields. -/
def splitOnC (sep : Char) : List Char → List (List Char)
  | [] => [[]]
  | c :: t =>
    if c = sep then [] :: splitOnC sep t
    else
      match splitOnC sep t with
      | [] => [[c]]
      | h :: r => (c :: h) :: r

/-! ## Answer Line Parser (`_parse_llm_answer`, logic.py lines 128-158) -/

/-- `re.sub(r'^\s*[\d]+[\.)]\s*', '', line)`: strip one leading ordinal
marker (optional whitespace, digits, `.` or `)`, optional whitespace);
if the pattern does not match, the line is returned unchanged. -/
def stripOrdinal (cs : List Char) : List Char :=
  let r1 := cs.dropWhile pyIsSpace
  let ds := r1.takeWhile Char.isDigit
  let r2 := r1.dropWhile Char.isDigit
  if ds.isEmpty then cs
  else
    match r2 with
    | '.' :: r3 => r3.dropWhile pyIsSpace
    | ')' :: r3 => r3.dropWhile pyIsSpace
    | _ => cs

/-- `re.sub(r'^\s*[-*•]\s*', '', cleaned)`: strip one leading bullet
marker; unchanged when the pattern does not match. -/
def stripBullet (cs : List Char) : List Char :=
  let r1 := cs.dropWhile pyIsSpace
  match r1 with
  | c :: r2 =>
    if c == '-' || c == '*' || c == '•' then r2.dropWhile pyIsSpace else cs
  | [] => cs

/-- One-pass scanner embedding `re.sub(r'\s*\([^)]*\)', '', cleaned)`.
State: `inParen` (currently skipping a parenthesized group), `acc`
(committed output, reversed), `ws` (pending run of whitespace that will be
deleted if a removable `(` follows, reversed).  A `(` opens a group only
when a `)` occurs later, exactly as the pattern `\([^)]*\)` requires. -/
def parenCutAux : Bool → List Char → List Char → List Char → List Char
  | _, acc, ws, [] => (ws ++ acc).reverse
  | true, acc, ws, c :: t =>
    if c = ')' then parenCutAux false acc ws t else parenCutAux true acc ws t
  | false, acc, ws, c :: t =>
    if c = '(' && t.contains ')' then parenCutAux true acc [] t
    else if pyIsSpace c then parenCutAux false acc (c :: ws) t
    else parenCutAux false (c :: (ws ++ acc)) [] t

/-- `re.sub(r'\s*\([^)]*\)', '', cleaned)` on a character list. -/
def parenCut (cs : List Char) : List Char := parenCutAux false [] [] cs

/-- One-pass scanner embedding `re.sub(r'\s*-\s*.*$', '', cleaned)`: cut
at the first `-`, also deleting the run of whitespace immediately before
it; the whitespace is optional in the pattern, so any hyphen cuts. -/
def hyphenCutAux : List Char → List Char → List Char → List Char
  | acc, ws, [] => (ws ++ acc).reverse
  | acc, ws, c :: t =>
    if c = '-' then acc.reverse
    else if pyIsSpace c then hyphenCutAux acc (c :: ws) t
    else hyphenCutAux (c :: (ws ++ acc)) [] t

/-- `re.sub(r'\s*-\s*.*$', '', cleaned)` on a character list. -/
def hyphenCut (cs : List Char) : List Char := hyphenCutAux [] [] cs

/-- The cleaning chain of lines 142-151: strip ordinal and bullet
markers, delete parenthesized substrings (then `strip()`), cut at the
first hyphen (then `strip()`). -/
def cleanLine (cs : List Char) : List Char :=
  stripWs (hyphenCut (stripWs (parenCut (stripBullet (stripOrdinal cs)))))

/-- Lines 138-155 of logic.py applied to a single line: skip blank lines,
clean the line, and keep the result only if non-empty. -/
def processLine (cs : List Char) : Option (List Char) :=
  if (stripWs cs).isEmpty then none
  else if (cleanLine cs).isEmpty then none else some (cleanLine cs)

/-- `_parse_llm_answer`: strip the whole answer, split on newlines, and
collect the cleaned non-empty lines in order. -/
def parse_llm_answer (llm_answer : String) : List String :=
  ((splitOnC '\n' (stripWs llm_answer.toList)).filterMap processLine).map
    String.mk

/-! ## Python/pandas value model -/

/-- A cell or field value as it flows through the Python code: a missing
value (`NaN`/`None`), a string, an integer, a boolean, or a list. -/
inductive Val where
  | vNaN
  | vStr (s : String)
  | vInt (n : Int)
  | vBool (b : Bool)
  | vList (l : List Val)

/-- A Python exception escaping the pipeline. -/
inductive PyErr where
  | valueError (msg : String)
  | typeError (msg : String)
  | regexError (msg : String)

/-- `pd.isna` on a scalar value. -/
def isnaScalar : Val → Bool
  | .vNaN => true
  | _ => false

/-- `if pd.isna(v):` — for a scalar, `pd.isna` returns a boolean; for a
list it returns an element-wise boolean ndarray, whose use as a condition
raises `ValueError` when it holds two or more elements (numpy's
"ambiguous truth value").  A one-element array is truthy iff its element
is; the empty array is falsy (numpy's legacy truth value). -/
def isnaTruthy : Val → Except PyErr Bool
  | .vList [] => .ok false
  | .vList [x] => .ok (isnaScalar x)
  | .vList (_ :: _ :: _) =>
    .error (.valueError "ambiguous truth value of a boolean array")
  | v => .ok (isnaScalar v)

/-- `if pd.notna(v):` with the same array-truthiness rules. -/
def notnaTruthy : Val → Except PyErr Bool
  | .vList [] => .ok false
  | .vList [x] => .ok (!(isnaScalar x))
  | .vList (_ :: _ :: _) =>
    .error (.valueError "ambiguous truth value of a boolean array")
  | v => .ok (!(isnaScalar v))

/-- `str(v)` for the scalar values the pipeline renders (list rendering is
outside the modelled fragment; it only occurs behind hypotheses that
exclude list cells). -/
def pyStr : Val → String
  | .vStr s => s
  | .vInt n => toString n
  | .vBool b => if b then "True" else "False"
  | .vNaN => "nan"
  | .vList _ => "[...]"

/-- Digits-to-number accumulator. -/
def natOfDigits (ds : List Char) : Nat :=
  ds.foldl (fun a c => a * 10 + (c.toNat - 48)) 0

/-- `int(s)` for a string: surrounding whitespace, an optional sign, then
ASCII digits; anything else raises `ValueError`. -/
def pyIntOfStr (s : String) : Option Int :=
  match stripWs s.toList with
  | '-' :: ds =>
    if !ds.isEmpty && ds.all Char.isDigit then some (-(natOfDigits ds : Int))
    else none
  | '+' :: ds =>
    if !ds.isEmpty && ds.all Char.isDigit then some ((natOfDigits ds : Int))
    else none
  | ds =>
    if !ds.isEmpty && ds.all Char.isDigit then some ((natOfDigits ds : Int))
    else none

/-- `int(v)` on a cell value. -/
def pyInt : Val → Except PyErr Int
  | .vInt n => .ok n
  | .vBool b => .ok (if b then 1 else 0)
  | .vStr s =>
    match pyIntOfStr s with
    | some n => .ok n
    | none => .error (.valueError "invalid literal for int with base 10")
  | .vNaN => .error (.valueError "cannot convert float NaN to integer")
  | .vList _ => .error (.typeError "int() argument must not be a list")

/-! ## JSON fragment (`json.loads`)

The embedded parser covers null/true/false, integers (no leading zeros),
escape-free double-quoted strings, and arrays — the JSON fragment relevant
to the catalog's test-type cells.  Inputs outside the fragment fail. -/

/-- JSON insignificant whitespace. -/
def jsonWs (c : Char) : Bool :=
  c == ' ' || c == '\t' || c == '\n' || c == '\r'

/-- Skip insignificant whitespace. -/
def jskipWs (cs : List Char) : List Char := cs.dropWhile jsonWs

/-- The characters of a double-quoted JSON string up to the closing quote
(escape sequences are outside the modelled fragment). -/
def jparseStrChars : List Char → Option (List Char × List Char)
  | [] => none
  | c :: t =>
    if c = '"' then some ([], t)
    else if c = '\\' then none
    else
      match jparseStrChars t with
      | some (s, r) => some (c :: s, r)
      | none => none

/-- A JSON number (integers only; a leading zero must stand alone). -/
def jparseNum : List Char → Option (Nat × List Char)
  | [] => none
  | c :: t =>
    if c = '0' then
      match t with
      | d :: _ => if d.isDigit then none else some (0, t)
      | [] => some (0, [])
    else if c.isDigit then
      some (natOfDigits (c :: t.takeWhile Char.isDigit),
            t.dropWhile Char.isDigit)
    else none

/-- JSON literals and numbers. -/
def jparseAtom (cs : List Char) : Option (Val × List Char) :=
  if cs.take 4 = ['t', 'r', 'u', 'e'] then some (.vBool true, cs.drop 4)
  else if cs.take 5 = ['f', 'a', 'l', 's', 'e'] then
    some (.vBool false, cs.drop 5)
  else if cs.take 4 = ['n', 'u', 'l', 'l'] then some (.vNaN, cs.drop 4)
  else
    match cs with
    | '-' :: t => (jparseNum t).map (fun p => (.vInt (-(p.1 : Int)), p.2))
    | t => (jparseNum t).map (fun p => (.vInt ((p.1 : Int)), p.2))

mutual

/-- A JSON value (fuelled recursive descent; the fuel is structural so the
kernel can evaluate the parser). -/
def jparseVal : Nat → List Char → Option (Val × List Char)
  | 0, _ => none
  | fuel + 1, cs =>
    match jskipWs cs with
    | [] => none
    | c :: t =>
      if c = '"' then
        match jparseStrChars t with
        | some (s, r) => some (.vStr (String.mk s), r)
        | none => none
      else if c = '[' then
        match jskipWs t with
        | ']' :: r => some (.vList [], r)
        | t' =>
          match jparseItems fuel t' with
          | some (l, r) => some (.vList l, r)
          | none => none
      else jparseAtom (c :: t)

/-- The comma-separated items of a non-empty JSON array, consuming the
closing bracket. -/
def jparseItems : Nat → List Char → Option (List Val × List Char)
  | 0, _ => none
  | fuel + 1, cs =>
    match jparseVal fuel cs with
    | none => none
    | some (v, r) =>
      match jskipWs r with
      | ',' :: r2 =>
        match jparseItems fuel r2 with
        | some (l, r3) => some (v :: l, r3)
        | none => none
      | ']' :: r2 => some ([v], r2)
      | _ => none

end

/-- `json.loads(s)`: parse one value and require only whitespace after it. -/
def jsonLoads (s : String) : Except String Val :=
  let cs := s.toList
  match jparseVal (2 * cs.length + 2) cs with
  | some (v, r) =>
    if (jskipWs r).isEmpty then .ok v else .error "Extra data"
  | none => .error "Expecting value"

/-! ## Test-Type Normalizer (`_parse_test_type`, logic.py lines 201-231) -/

/-- `s.replace(";", ",")`. -/
def replaceSemi (cs : List Char) : List Char :=
  cs.map (fun c => if c = ';' then ',' else c)

/-- The characters stripped by `test_type_value.strip("[]'\"")`. -/
def cellStripSet : List Char := ['[', ']', '\'', '"']

/-- The characters stripped by `item.strip("'\"")`. -/
def quoteSet : List Char := ['\'', '"']

/-- `item.strip().strip("'\"")` applied to one split part. -/
def partClean (part : List Char) : String :=
  String.mk (stripBoth (fun c => decide (c ∈ quoteSet)) (stripWs part))

/-- The string branch of `_parse_test_type` (lines 214-229): try
`json.loads` after replacing semicolons with commas; on parse failure,
strip a bracket-and-quote shell from the original string and split on
semicolons, else commas, else treat the remainder as a single category.
None of the fallback operations can raise, so the inner
`except Exception: return []` failsafe is unreachable. -/
def parseTTstr (s : String) : Val :=
  match jsonLoads (String.mk (replaceSemi s.toList)) with
  | .ok v => v
  | .error _ =>
    let cleaned := stripBoth (fun c => decide (c ∈ cellStripSet)) s.toList
    if cleaned.contains ';' then
      .vList ((splitOnC ';' cleaned).map (fun part => .vStr (partClean part)))
    else if cleaned.contains ',' then
      .vList ((splitOnC ',' cleaned).map (fun part => .vStr (partClean part)))
    else if cleaned.isEmpty then .vList []
    else .vList [.vStr (String.mk cleaned)]

/-- `_parse_test_type`: the `pd.isna` guard (which raises on multi-element
list input), the pass-through for list input, the string branch, and the
final `return []` for any other type. -/
def parse_test_type (test_type_value : Val) : Except PyErr Val := do
  let b ← isnaTruthy test_type_value
  if b then return .vList []
  match test_type_value with
  | .vList _ => return test_type_value
  | .vStr s => return parseTTstr s
  | _ => return .vList []

/-! ## Catalog rows and the regex fragment of `str.contains` -/

/-- One source row with the columns the pipeline reads. -/
structure Row where
  name : Val
  url : Val
  description : Val
  adaptive_support : Val
  duration : Val
  remote_support : Val
  test_type : Val

/-- One resolved record, as in the dictionary built at lines 184-192. -/
structure Product where
  name : String
  url : String
  description : String
  adaptive_support : String
  duration : Int
  remote_support : String
  test_type : Val

/-- `df[df['name'].notna()]` in `_load_and_index_data` (line 92): the rows
kept for indexing are exactly those whose name cell is not missing. -/
def load_and_index_data (rows : List Row) : List Row :=
  rows.filter (fun r => !(isnaScalar r.name))

/-- A compiled token of the modelled regex fragment: a literal character
or `.` (any character except newline). -/
inductive RTok where
  | lit (c : Char)
  | dot

/-- Regex metacharacters.  Besides `.`, whose semantics the model covers,
these characters start constructs outside the modelled fragment, so
`compilePat` refuses them; every theorem quantifying over candidate names
restricts to patterns free of them. -/
def regexSpecials : List Char :=
  ['.', '+', '*', '?', '(', ')', '[', ']', '{', '}', '\\', '|', '^', '$']

/-- Compile a pattern string for `re.search`: literal characters and `.`. -/
def compilePat : List Char → Except PyErr (List RTok)
  | [] => .ok []
  | c :: t =>
    if c = '.' then (compilePat t).map (fun r => .dot :: r)
    else if c ∈ regexSpecials then
      .error (.regexError "pattern outside modelled regex fragment")
    else (compilePat t).map (fun r => .lit c :: r)

/-- Match the token list against a prefix of the text. -/
def matchHere : List RTok → List Char → Bool
  | [], _ => true
  | .lit c :: ts, x :: xs => c == x && matchHere ts xs
  | .dot :: ts, x :: xs => !(x == '\n') && matchHere ts xs
  | _ :: _, [] => false

/-- `re.search`: match at some position of the text. -/
def reSearch (ts : List RTok) : List Char → Bool
  | [] => matchHere ts []
  | x :: xs => matchHere ts (x :: xs) || reSearch ts xs

/-- ASCII lowercasing of a character list (the `re.IGNORECASE` and
`case=False` model: both pattern and subject are folded). -/
def lowerL (cs : List Char) : List Char := cs.map Char.toLower

/-- One element of `df['name'].str.contains(name, case=False, na=False)`:
non-string name cells become `NaN` and are filled to `False` by
`na=False`; string cells are regex-searched case-insensitively. -/
def rowMatches (pat : List RTok) (r : Row) : Bool :=
  match r.name with
  | .vStr s => reSearch pat (lowerL s.toList)
  | _ => false

/-- The record-construction block of `_find_data_by_names` (lines
184-192): each field is rendered with `str`/`int` behind a `pd.notna`
guard that substitutes the field's default when the cell is missing. -/
def buildRecord (row : Row) : Except PyErr Product := do
  let nb ← notnaTruthy row.name
  let nameV := if nb then pyStr row.name else ""
  let ub ← notnaTruthy row.url
  let urlV := if ub then pyStr row.url else ""
  let db ← notnaTruthy row.description
  let descV := if db then pyStr row.description else ""
  let ab ← notnaTruthy row.adaptive_support
  let adV := if ab then pyStr row.adaptive_support else "No"
  let durB ← notnaTruthy row.duration
  let durV ← if durB then pyInt row.duration else pure 0
  let rb ← notnaTruthy row.remote_support
  let remV := if rb then pyStr row.remote_support else "No"
  let ttV ← parse_test_type row.test_type
  return {
    name := nameV, url := urlV, description := descV,
    adaptive_support := adV, duration := durV,
    remote_support := remV, test_type := ttV }

/-- The per-candidate body of the loop in `_find_data_by_names` (lines
169-196): filter the store by a case-insensitive regex built from the
candidate, take the first match if any, and build the output record. -/
def resolveName (df : List Row) (nm : String) : Except PyErr (Option Product) := do
  let pat ← compilePat (lowerL nm.toList)
  match df.filter (rowMatches pat) with
  | [] => return none
  | row :: _ => do
    let p ← buildRecord row
    return some p

/-- `_find_data_by_names`: resolve each candidate in order, appending the
resolved record when a match exists and skipping the candidate silently
otherwise. -/
def find_data_by_names (df : List Row) (names : List String) :
    Except PyErr (List Product) :=
  names.foldlM
    (fun acc nm => do
      match ← resolveName df nm with
      | none => pure acc
      | some p => pure (acc ++ [p]))
    []

/-- Steps B and C of `get_recommendations` (lines 247-253): parse the
oracle's raw answer, then resolve the parsed names against the store. -/
def get_recommendations (df : List Row) (llm_answer : String) :
    Except PyErr (List Product) :=
  find_data_by_names df (parse_llm_answer llm_answer)

/-! ## Spec-side comparison definitions

These definitions follow the specification's words (substring matching,
per-field defaults, the well-formed stringified-list format) and are
compared against the code embedding above. -/

/-- `needle` is a prefix of `hay`. -/
def startsWithL : List Char → List Char → Bool
  | [], _ => true
  | _ :: _, [] => false
  | a :: as, b :: bs => a == b && startsWithL as bs

/-- `needle` occurs as a contiguous sublist of `hay`. -/
def containsSub (needle : List Char) : List Char → Bool
  | [] => needle.isEmpty
  | c :: t => startsWithL needle (c :: t) || containsSub needle t

/-- The spec's matching rule: the record's name contains the candidate as
a case-insensitive substring (non-string name cells never match). -/
def nameContainsCI (cand : String) (r : Row) : Bool :=
  match r.name with
  | .vStr s => containsSub (lowerL cand.toList) (lowerL s.toList)
  | _ => false

/-- The spec's resolution of one candidate: the first record, in load
order, whose name contains the candidate case-insensitively. -/
def specResolve (df : List Row) (cand : String) : Option Row :=
  df.find? (nameContainsCI cand)

/-- Default substitution for a string-rendered field. -/
def strDefault (d : String) (v : Val) : String :=
  match v with
  | .vNaN => d
  | _ => pyStr v

/-- The duration actually produced for a parseable-or-missing cell:
`int(cell)` when present, `0` when missing. -/
def durDefault : Val → Int
  | .vNaN => 0
  | .vInt n => n
  | .vBool b => if b then 1 else 0
  | .vStr s => (pyIntOfStr s).getD 0
  | .vList _ => 0

/-- `_parse_test_type` restricted to scalar cells, where it cannot raise. -/
def ttScalar : Val → Val
  | .vNaN => .vList []
  | .vStr s => parseTTstr s
  | .vList l => .vList l
  | _ => .vList []

/-- The record built from a matched row when every per-field conversion
succeeds. -/
def mkProductPure (r : Row) : Product :=
  { name := strDefault "" r.name, url := strDefault "" r.url,
    description := strDefault "" r.description,
    adaptive_support := strDefault "No" r.adaptive_support,
    duration := durDefault r.duration,
    remote_support := strDefault "No" r.remote_support,
    test_type := ttScalar r.test_type }

/-- A candidate name whose case-folded characters contain no regex
metacharacter, so that `str.contains` degenerates to literal substring
search. -/
def plainPat (s : String) : Bool :=
  (lowerL s.toList).all (fun c => decide (c ∉ regexSpecials))

/-- A duration cell the code can convert without raising: missing, an
integer, a boolean, or an integer-parseable string. -/
def durOk : Val → Bool
  | .vNaN => true
  | .vInt _ => true
  | .vBool _ => true
  | .vStr s => (pyIntOfStr s).isSome
  | .vList _ => false

/-- A scalar (non-list) cell, as produced by the tabular load. -/
def scalarCell : Val → Bool
  | .vList _ => false
  | _ => true

/-- A row whose cells are scalars and whose duration is convertible — the
shape on which the record-building block cannot raise. -/
def rowWF (r : Row) : Bool :=
  scalarCell r.name && scalarCell r.url && scalarCell r.description &&
  scalarCell r.adaptive_support && durOk r.duration &&
  scalarCell r.remote_support && scalarCell r.test_type

/-- The spec's load contract (§4.4): keep exactly the rows with a
non-empty string name. -/
def hasNonEmptyName (r : Row) : Bool :=
  match r.name with
  | .vStr s => !s.isEmpty
  | _ => false

/-- The Catalog Store load filter as the spec words it. -/
def specLoadFilter (rows : List Row) : List Row :=
  rows.filter hasNonEmptyName

/-- The interior of the semicolon-pseudo-JSON encoding: elements joined by
`'; '`, each wrapped in single quotes except for the outermost pair. -/
def ttMid : List String → List Char
  | [] => []
  | [e] => e.toList
  | e :: rest => e.toList ++ '\'' :: ';' :: ' ' :: '\'' :: ttMid rest

/-- The catalog's semicolon-pseudo-JSON stringification of a category
list, e.g. `['Knowledge & Skills'; 'Personality & Behavior']`. -/
def stringifyTT (l : List String) : String :=
  match l with
  | [] => "[]"
  | _ => String.mk ('[' :: '\'' :: (ttMid l ++ ['\'', ']']))

/-- A character the normalizer's stripping steps may delete at either end
of the cell or of a split part: brackets, quotes, or whitespace. -/
def strippable (c : Char) : Bool :=
  decide (c ∈ cellStripSet) || pyIsSpace c

/-- A well-formed category string for the round-trip property: non-empty,
free of the separators `;`/`,`, and not starting or ending with a
character the normalizer strips (brackets, quotes, whitespace). -/
def wfCat (e : String) : Bool :=
  e.toList.all (fun x => !(x == ';') && !(x == ',')) &&
  (match e.toList.head? with
   | some c => !strippable c
   | none => false) &&
  (match e.toList.getLast? with
   | some c => !strippable c
   | none => false)

/-! ## Concrete rows used by counterexamples and witnesses -/

/-- A row whose duration cell holds a non-numeric string. -/
def rowDurAbc : Row :=
  ⟨.vStr "Java Test", .vNaN, .vNaN, .vNaN, .vStr "abc", .vNaN, .vNaN⟩

/-- A row whose duration cell holds a negative integer. -/
def rowDurNeg : Row :=
  ⟨.vStr "Java Test", .vNaN, .vNaN, .vNaN, .vInt (-7), .vNaN, .vNaN⟩

/-- A row named "AXB", matched by the pattern "a.b" but not containing it
as a substring. -/
def rowAXB : Row := ⟨.vStr "AXB", .vNaN, .vNaN, .vNaN, .vNaN, .vNaN, .vNaN⟩

/-- A row whose name cell is the empty string (present but empty). -/
def rowEmptyName : Row := ⟨.vStr "", .vNaN, .vNaN, .vNaN, .vNaN, .vNaN, .vNaN⟩

/-- A fully populated well-formed row. -/
def rowJava : Row :=
  ⟨.vStr "Java Test", .vStr "https://x", .vStr "desc", .vStr "Yes",
   .vInt 30, .vStr "Yes", .vStr "['Knowledge & Skills']"⟩

end SHL

namespace SHL

/-! ## Claim C10: JSON pass-through -/

/-- Claim C10: for every string test-type cell that is valid JSON after
substituting every semicolon with a comma, the Test-Type Normalizer
returns exactly the JSON-parsed value of that substituted string,
whatever its type — the parsed value is not checked to be a sequence of
strings. -/
theorem c10_json_passthrough (s : String) (v : Val)
    (h : jsonLoads (String.mk (replaceSemi s.toList)) = .ok v) :
    parse_test_type (.vStr s) = .ok v := by
  have h1 : parse_test_type (.vStr s) = .ok (parseTTstr s) := rfl
  rw [h1]
  unfold parseTTstr
  rw [h]

/-- Witness for C10 at the numeric cell "5" and the numeric list cell
"[1; 2]", neither of which is a sequence of strings. -/
theorem c10_json_passthrough_witness :
    parse_test_type (.vStr "5") = .ok (.vInt 5) ∧
    parse_test_type (.vStr "[1; 2]") = .ok (.vList [.vInt 1, .vInt 2]) :=
  ⟨c10_json_passthrough "5" (.vInt 5) (by rfl),
   c10_json_passthrough "[1; 2]" (.vList [.vInt 1, .vInt 2]) (by rfl)⟩

/-! ## Claim C5: list input to the normalizer -/

/-- Claim C5 (code bug): a test-type value that is already a list of two
or more strings does not pass through unchanged — `pd.isna` of a list is
an element-wise boolean array, and using it as the guard's condition
raises `ValueError` before the list pass-through branch is reached. -/
theorem c5_list_input_raises :
    parse_test_type
        (.vList [.vStr "Knowledge & Skills", .vStr "Personality & Behavior"]) =
      .error (.valueError "ambiguous truth value of a boolean array") := rfl

/-! ## Counterexamples -/

/-- Counterexample to Claim C1 as stated: with the candidate name "java"
and a catalog row whose duration cell is the non-numeric string "abc",
the pipeline raises `ValueError` from `int(row['duration'])` instead of
degrading to a default. -/
theorem c1_counterexample :
    get_recommendations [rowDurAbc] "java" =
      .error (.valueError "invalid literal for int with base 10") := rfl

/-- Counterexample to Claim C2 as stated: the candidate "a.b" resolves to
the record named "AXB" — the candidate is used as a regular expression
(`.` matches any character), although "AXB" does not contain "a.b" as a
case-insensitive substring. -/
theorem c2_counterexample :
    find_data_by_names [rowAXB] ["a.b"] =
      .ok [{ name := "AXB", url := "", description := "",
             adaptive_support := "No", duration := 0,
             remote_support := "No", test_type := .vList [] }] ∧
    nameContainsCI "a.b" rowAXB = false :=
  ⟨rfl, rfl⟩

/-- Counterexample to Claim C3 as stated: an unparseable duration cell
("abc") raises `ValueError` instead of defaulting to 0, and a negative
duration cell (-7) is passed through, so the output is not a non-negative
integer. -/
theorem c3_counterexample :
    find_data_by_names [rowDurAbc] ["java"] =
      .error (.valueError "invalid literal for int with base 10") ∧
    (find_data_by_names [rowDurNeg] ["java"]).map (List.map Product.duration) =
      .ok [(-7 : Int)] :=
  ⟨rfl, rfl⟩

/-- Counterexample to Claim C4 as stated: the hyphen in "Ruby-on-Rails"
is not surrounded by whitespace, yet the parser removes everything from
that hyphen onward (the whitespace in the pattern `\s*-\s*.*$` is
optional). -/
theorem c4_counterexample :
    parse_llm_answer "Ruby-on-Rails Test" = ["Ruby"] ∧
    (["Ruby"] : List String) ≠ ["Ruby-on-Rails Test"] :=
  ⟨rfl, by decide⟩

/-- Counterexample to Claim C7 as stated: a row whose name cell is the
empty string is retained by the load filter (`notna`), although it lacks
a non-empty name value. -/
theorem c7_counterexample :
    load_and_index_data [rowEmptyName] = [rowEmptyName] ∧
    hasNonEmptyName rowEmptyName = false :=
  ⟨rfl, rfl⟩

/-- Counterexample to Claim C8 as stated: the line "1. 2. Java" begins
with the ordinal marker "1. ", but the parser's output for it differs
from its output for the marker-stripped line "2. Java" — only one marker
is stripped per line. -/
theorem c8_counterexample :
    parse_llm_answer "1. 2. Java" = ["2. Java"] ∧
    parse_llm_answer "2. Java" = ["Java"] ∧
    (["2. Java"] : List String) ≠ ["Java"] :=
  ⟨rfl, rfl, by decide⟩

/-! ## Claim C7 (amended): the load filter keeps exactly the non-missing
names -/

/-- Claim C7 (amended): after the load step the index contains exactly
the source rows whose name cell is not missing (`NaN`); rows with a
present but empty name value are retained. -/
theorem c7_load_keeps_notna (rows : List Row) (r : Row) :
    r ∈ load_and_index_data rows ↔ r ∈ rows ∧ r.name ≠ .vNaN := by
  cases hr : r.name <;>
    simp [load_and_index_data, List.mem_filter, isnaScalar, hr]

/-- Witness for C7 at a one-row catalog with an empty-string name. -/
theorem c7_load_keeps_notna_witness :
    rowEmptyName ∈ load_and_index_data [rowEmptyName] ↔
      rowEmptyName ∈ [rowEmptyName] ∧ rowEmptyName.name ≠ .vNaN :=
  c7_load_keeps_notna [rowEmptyName] rowEmptyName

/-! ## The resolver on metacharacter-free candidates and well-formed rows -/

theorem compilePat_plain (cs : List Char) (h : ∀ c ∈ cs, c ∉ regexSpecials) :
    compilePat cs = .ok (cs.map RTok.lit) := by
  induction cs with
  | nil => rfl
  | cons c t ih =>
    have hc : c ∉ regexSpecials := h c (by simp)
    have hdot : ¬ c = '.' := fun e => hc (by rw [e]; decide)
    simp [compilePat, hdot, hc, Except.map,
      ih fun x hx => h x (List.mem_cons_of_mem _ hx)]

theorem matchHere_lits (cs s : List Char) :
    matchHere (cs.map RTok.lit) s = startsWithL cs s := by
  induction cs generalizing s with
  | nil => cases s <;> rfl
  | cons c t ih =>
    cases s with
    | nil => rfl
    | cons x xs => simp [matchHere, startsWithL, ih]

theorem reSearch_lits (cs s : List Char) :
    reSearch (cs.map RTok.lit) s = containsSub cs s := by
  induction s with
  | nil => cases cs <;> rfl
  | cons x xs ih => simp [reSearch, containsSub, matchHere_lits, ih]

theorem rowMatches_lits (nm : String) (r : Row) :
    rowMatches ((lowerL nm.toList).map RTok.lit) r = nameContainsCI nm r := by
  cases hr : r.name <;> simp [rowMatches, nameContainsCI, hr, reSearch_lits]

theorem notnaTruthy_scalar (v : Val) (h : scalarCell v = true) :
    notnaTruthy v = .ok (!(isnaScalar v)) := by
  cases v <;> simp_all [notnaTruthy, scalarCell]

theorem strDefault_eq (v : Val) (d : String) :
    (if !(isnaScalar v) then pyStr v else d) = strDefault d v := by
  cases v <;> rfl

theorem durOk_scalar (v : Val) (h : durOk v = true) : scalarCell v = true := by
  cases v <;> simp_all [durOk, scalarCell]

theorem parse_test_type_scalar (v : Val) (h : scalarCell v = true) :
    parse_test_type v = .ok (ttScalar v) := by
  cases v <;> first
    | rfl
    | simp [scalarCell] at h

theorem buildRecord_ok (r : Row) (h : rowWF r = true) :
    buildRecord r = .ok (mkProductPure r) := by
  simp only [rowWF, Bool.and_eq_true] at h
  obtain ⟨⟨⟨⟨⟨⟨h1, h2⟩, h3⟩, h4⟩, h5⟩, h6⟩, h7⟩ := h
  rw [buildRecord, notnaTruthy_scalar _ h1, notnaTruthy_scalar _ h2,
    notnaTruthy_scalar _ h3, notnaTruthy_scalar _ h4,
    notnaTruthy_scalar _ (durOk_scalar _ h5), notnaTruthy_scalar _ h6]
  simp only [bind, Except.bind, parse_test_type_scalar _ h7, strDefault_eq,
    mkProductPure]
  cases hd : r.duration with
  | vStr s =>
    rw [hd] at h5
    simp only [durOk] at h5
    obtain ⟨n, hn⟩ := Option.isSome_iff_exists.mp h5
    simp [isnaScalar, pyInt, hn, durDefault, pure, Except.pure]
  | vList l => rw [hd] at h5; simp [durOk] at h5
  | vNaN => simp [isnaScalar, durDefault, pure, Except.pure]
  | vInt n => simp [isnaScalar, pyInt, durDefault, pure, Except.pure]
  | vBool b => simp [isnaScalar, pyInt, durDefault, pure, Except.pure]

theorem filter_eq_cons_of_find? {α : Type} (p : α → Bool) (l : List α) (r : α)
    (h : l.find? p = some r) : ∃ t, l.filter p = r :: t := by
  induction l with
  | nil => simp at h
  | cons a as ih =>
    by_cases hp : p a
    · rw [List.find?_cons_of_pos _ hp] at h
      cases h
      exact ⟨as.filter p, by rw [List.filter_cons_of_pos hp]⟩
    · rw [List.find?_cons_of_neg _ hp] at h
      obtain ⟨t, ht⟩ := ih h
      exact ⟨t, by rw [List.filter_cons_of_neg hp, ht]⟩

theorem resolveName_eq_spec (df : List Row) (nm : String)
    (h1 : plainPat nm = true) (h2 : ∀ r ∈ df, rowWF r = true) :
    resolveName df nm = .ok ((specResolve df nm).map mkProductPure) := by
  have hplain : ∀ c ∈ lowerL nm.toList, c ∉ regexSpecials := by
    simpa [plainPat, List.all_eq_true] using h1
  have hfil : df.filter (rowMatches ((lowerL nm.toList).map RTok.lit)) =
      df.filter (nameContainsCI nm) :=
    List.filter_congr fun r _ => rowMatches_lits nm r
  rw [resolveName, compilePat_plain _ hplain]
  simp only [bind, Except.bind, hfil]
  cases hf : df.find? (nameContainsCI nm) with
  | none =>
    have : df.filter (nameContainsCI nm) = [] :=
      List.filter_eq_nil_iff.mpr (by simpa using List.find?_eq_none.mp hf)
    rw [this]
    simp [specResolve, hf, pure, Except.pure]
  | some r =>
    obtain ⟨t, ht⟩ := filter_eq_cons_of_find? _ _ _ hf
    rw [ht]
    simp only [bind, Except.bind,
      buildRecord_ok r (h2 r (List.mem_of_find?_eq_some hf)),
      specResolve, hf, pure, Except.pure, Option.map]

theorem exc_pure_eq_ok {α : Type} (a : α) :
    (pure a : Except PyErr α) = .ok a := rfl

theorem exc_bind_ok {α β : Type} (a : α) (f : α → Except PyErr β) :
    ((Except.ok a : Except PyErr α) >>= f) = f a := rfl

theorem exc_pure_bind {α β : Type} (a : α) (f : α → Except PyErr β) :
    ((pure a : Except PyErr α) >>= f) = f a := rfl

theorem find_data_by_names_eq_spec_aux (df : List Row) (names : List String)
    (acc : List Product)
    (h1 : ∀ nm ∈ names, plainPat nm = true) (h2 : ∀ r ∈ df, rowWF r = true) :
    (names.foldlM
      (fun acc nm => do
        match ← resolveName df nm with
        | none => pure acc
        | some p => pure (acc ++ [p]))
      acc : Except PyErr (List Product)) =
      .ok (acc ++ names.filterMap fun nm => (specResolve df nm).map mkProductPure) := by
  induction names generalizing acc with
  | nil => simp [exc_pure_eq_ok]
  | cons nm ns ih =>
    have hnm : plainPat nm = true := h1 nm (by simp)
    have hns : ∀ x ∈ ns, plainPat x = true :=
      fun x hx => h1 x (List.mem_cons_of_mem _ hx)
    rw [List.foldlM_cons]
    rw [resolveName_eq_spec df nm hnm h2, exc_bind_ok]
    cases hs : specResolve df nm with
    | none =>
      simp only [Option.map_none', exc_pure_bind, List.filterMap_cons, hs]
      exact ih acc hns
    | some r =>
      simp only [Option.map_some', exc_pure_bind, List.filterMap_cons, hs]
      rw [ih (acc ++ [mkProductPure r]) hns]
      simp [List.append_assoc]

theorem find_data_by_names_eq_spec (df : List Row) (names : List String)
    (h1 : ∀ nm ∈ names, plainPat nm = true) (h2 : ∀ r ∈ df, rowWF r = true) :
    find_data_by_names df names =
      .ok (names.filterMap fun nm => (specResolve df nm).map mkProductPure) := by
  simpa [find_data_by_names] using
    find_data_by_names_eq_spec_aux df names [] h1 h2

/-! ## Claim C2 (amended): resolution policy -/

/-- Claim C2 (amended): candidate names are interpreted as case-insensitive
regular-expression patterns, not as literal substrings (see the
counterexample).  For candidates free of regex metacharacters the two
coincide, and then the resolver returns, for each candidate in the order
produced by the Answer Line Parser and without deduplication, the first
record in load order whose name contains the candidate as a
case-insensitive substring; candidates with zero matches contribute
nothing. -/
theorem c2_resolution_policy (df : List Row) (names : List String)
    (h1 : ∀ nm ∈ names, plainPat nm = true)
    (h2 : ∀ r ∈ df, rowWF r = true) :
    find_data_by_names df names =
      .ok (names.filterMap fun nm => (specResolve df nm).map mkProductPure) :=
  find_data_by_names_eq_spec df names h1 h2

/-- Witness for C2: a repeated candidate resolves twice to the first of
two matching rows, preserving order and duplicates. -/
theorem c2_resolution_policy_witness :
    find_data_by_names [rowJava, rowDurNeg] ["java", "nomatch", "java"] =
      .ok (["java", "nomatch", "java"].filterMap fun nm =>
        (specResolve [rowJava, rowDurNeg] nm).map mkProductPure) :=
  c2_resolution_policy [rowJava, rowDurNeg] ["java", "nomatch", "java"]
    (by decide) (by decide)

/-! ## Claim C1 (amended): totality of the pipeline -/

/-- Claim C1 (amended): the Answer Line Parser and the Test-Type
Normalizer (on scalar cells) are total, but the resolver can raise: a
candidate name is compiled as a regular expression, and a present
non-integer duration cell makes `int` raise (see the counterexample).
For catalogs of well-formed scalar rows and answers whose parsed
candidates are free of regex metacharacters, the pipeline returns a
result and never raises. -/
theorem c1_no_raise (df : List Row) (llm_answer : String)
    (h1 : ∀ nm ∈ parse_llm_answer llm_answer, plainPat nm = true)
    (h2 : ∀ r ∈ df, rowWF r = true) :
    ∃ out, get_recommendations df llm_answer = .ok out :=
  ⟨_, find_data_by_names_eq_spec df (parse_llm_answer llm_answer) h1 h2⟩

/-- Witness for C1 on a three-line answer with a blank line and an
unmatched name. -/
theorem c1_no_raise_witness :
    ∃ out, get_recommendations [rowJava] "1. Java Test\n\n2. Unknown Thing" =
      .ok out :=
  c1_no_raise [rowJava] "1. Java Test\n\n2. Unknown Thing" (by decide) (by decide)

/-! ## Claim C3 (amended): the duration field -/

/-- Claim C3 (amended): the resolved record's duration equals `int` of the
duration cell when the cell is present and parseable (negative values
pass through unchanged), and defaults to 0 only when the cell is missing;
a present unparseable cell raises `ValueError` instead of defaulting
(see the counterexample). -/
theorem c3_duration_field (r : Row) (nm : String)
    (h1 : plainPat nm = true) (h2 : rowWF r = true)
    (h3 : nameContainsCI nm r = true) :
    (find_data_by_names [r] [nm]).map (List.map Product.duration) =
      .ok [durDefault r.duration] := by
  rw [find_data_by_names_eq_spec [r] [nm]
    (by simpa using h1) (by simpa using h2)]
  simp [specResolve, List.find?_cons_of_pos _ h3, mkProductPure, Except.map, h3]

/-- Witness for C3: a missing duration cell yields 0, a present integer
cell yields its value. -/
theorem c3_duration_field_witness :
    (find_data_by_names [rowAXB] ["axb"]).map (List.map Product.duration) =
      .ok [durDefault rowAXB.duration] ∧
    (find_data_by_names [rowJava] ["java"]).map (List.map Product.duration) =
      .ok [durDefault rowJava.duration] :=
  ⟨c3_duration_field rowAXB "axb" (by decide) (by decide) (by decide),
   c3_duration_field rowJava "java" (by decide) (by decide) (by decide)⟩

/-! ## Claim C4 (amended): the hyphen-truncation step -/

theorem rstripWs_all_space (x : List Char) (h : ∀ c ∈ x, pyIsSpace c) :
    rstripWs x = [] := by
  simp [rstripWs,
    List.dropWhile_eq_nil_iff.mpr fun c hc => h c (List.mem_reverse.mp hc)]

theorem rstripWs_append_nonspace (x y : List Char) (c : Char)
    (hc : ¬ pyIsSpace c = true) :
    rstripWs (x ++ c :: y) = x ++ c :: rstripWs y := by
  have hassoc : (x ++ c :: y).reverse = y.reverse ++ c :: x.reverse := by simp
  rw [rstripWs, hassoc, List.dropWhile_append]
  by_cases he : (List.dropWhile pyIsSpace y.reverse).isEmpty
  · simp [he, List.dropWhile_cons_of_neg hc, rstripWs, List.isEmpty_iff.mp he]
  · simp [he, rstripWs]

theorem hyphenCutAux_cut (t : List Char) (s : List Char) :
    ∀ acc ws : List Char, '-' ∉ s → (∀ c ∈ ws, pyIsSpace c) →
    hyphenCutAux acc ws (s ++ '-' :: t) =
      acc.reverse ++ rstripWs (ws.reverse ++ s) := by
  induction s with
  | nil =>
    intro acc ws _ hws
    have h0 : rstripWs ws.reverse = [] :=
      rstripWs_all_space _ fun c hc => hws c (List.mem_reverse.mp hc)
    simp [hyphenCutAux, h0]
  | cons c s' ih =>
    intro acc ws hns hws
    have hc : ¬ c = '-' := fun e => hns (by rw [e]; exact List.mem_cons_self _ _)
    have hns' : '-' ∉ s' := fun hm => hns (List.mem_cons_of_mem _ hm)
    rw [List.cons_append]
    by_cases hsp : pyIsSpace c
    · have hws' : ∀ x ∈ c :: ws, pyIsSpace x := by
        intro x hx
        rcases List.mem_cons.mp hx with rfl | hx
        · exact hsp
        · exact hws x hx
      rw [show hyphenCutAux acc ws (c :: (s' ++ '-' :: t)) =
            hyphenCutAux acc (c :: ws) (s' ++ '-' :: t) from by
        simp [hyphenCutAux, hc, hsp]]
      rw [ih acc (c :: ws) hns' hws']
      simp [List.append_assoc]
    · rw [show hyphenCutAux acc ws (c :: (s' ++ '-' :: t)) =
            hyphenCutAux (c :: (ws ++ acc)) [] (s' ++ '-' :: t) from by
        simp [hyphenCutAux, hc, hsp]]
      rw [ih (c :: (ws ++ acc)) [] hns' (by simp),
        rstripWs_append_nonspace _ _ _ hsp]
      simp [List.append_assoc]

theorem hyphenCutAux_no_hyphen (s : List Char) :
    ∀ acc ws : List Char, '-' ∉ s →
    hyphenCutAux acc ws s = acc.reverse ++ ws.reverse ++ s := by
  induction s with
  | nil => intro acc ws _; simp [hyphenCutAux]
  | cons c s' ih =>
    intro acc ws hns
    have hc : ¬ c = '-' := fun e => hns (by rw [e]; exact List.mem_cons_self _ _)
    have hns' : '-' ∉ s' := fun hm => hns (List.mem_cons_of_mem _ hm)
    by_cases hsp : pyIsSpace c
    · rw [show hyphenCutAux acc ws (c :: s') =
            hyphenCutAux acc (c :: ws) s' from by simp [hyphenCutAux, hc, hsp]]
      rw [ih acc (c :: ws) hns']
      simp [List.append_assoc]
    · rw [show hyphenCutAux acc ws (c :: s') =
            hyphenCutAux (c :: (ws ++ acc)) [] s' from by
        simp [hyphenCutAux, hc, hsp]]
      rw [ih (c :: (ws ++ acc)) [] hns']
      simp [List.append_assoc]

/-- Claim C4 (amended): the annotation-stripping step `\s*-\s*.*$` of the
Answer Line Parser removes exactly the text from the first hyphen through
the end of the line together with the run of whitespace immediately
before that hyphen — the whitespace around the hyphen is optional, so a
hyphenated word is also truncated at its hyphen; a line without a hyphen
is left unchanged by this step. -/
theorem c4_hyphen_truncation (s t : List Char) (h : '-' ∉ s) :
    hyphenCut (s ++ '-' :: t) = rstripWs s ∧ hyphenCut s = s := by
  constructor
  · have := hyphenCutAux_cut t s [] [] h (by simp)
    simpa [hyphenCut] using this
  · have := hyphenCutAux_no_hyphen s [] [] h
    simpa [hyphenCut] using this

/-- Witness for C4 at the line "Ruby-on-Rails Test". -/
theorem c4_hyphen_truncation_witness :
    hyphenCut ("Ruby".toList ++ '-' :: "on-Rails Test".toList) =
      rstripWs "Ruby".toList ∧ hyphenCut "Ruby".toList = "Ruby".toList :=
  c4_hyphen_truncation "Ruby".toList "on-Rails Test".toList (by decide)

/-! ## Claim C8 (amended): marker stripping -/

theorem stripOrdinal_all_space (L : List Char) (h : ∀ c ∈ L, pyIsSpace c) :
    stripOrdinal L = L := by
  simp [stripOrdinal, List.dropWhile_eq_nil_iff.mpr h]

theorem stripBullet_all_space (L : List Char) (h : ∀ c ∈ L, pyIsSpace c) :
    stripBullet L = L := by
  simp [stripBullet, List.dropWhile_eq_nil_iff.mpr h]

theorem parenCutAux_no_paren (s : List Char) :
    ∀ acc ws : List Char, '(' ∉ s →
    parenCutAux false acc ws s = acc.reverse ++ ws.reverse ++ s := by
  induction s with
  | nil => intro acc ws _; simp [parenCutAux]
  | cons c s' ih =>
    intro acc ws hns
    have hc : ¬ c = '(' := fun e => hns (by rw [e]; exact List.mem_cons_self _ _)
    have hns' : '(' ∉ s' := fun hm => hns (List.mem_cons_of_mem _ hm)
    by_cases hsp : pyIsSpace c
    · rw [show parenCutAux false acc ws (c :: s') =
            parenCutAux false acc (c :: ws) s' from by
        simp [parenCutAux, hc, hsp]]
      rw [ih acc (c :: ws) hns']
      simp [List.append_assoc]
    · rw [show parenCutAux false acc ws (c :: s') =
            parenCutAux false (c :: (ws ++ acc)) [] s' from by
        simp [parenCutAux, hc, hsp]]
      rw [ih (c :: (ws ++ acc)) [] hns']
      simp [List.append_assoc]

theorem stripWs_eq_nil_iff (cs : List Char) :
    stripWs cs = [] ↔ ∀ c ∈ cs, pyIsSpace c := by
  constructor
  · intro h c hc
    have h1 : (cs.dropWhile pyIsSpace).reverse.dropWhile pyIsSpace = [] := by
      have := congrArg List.reverse h
      simpa [stripWs, stripBoth] using this
    have h2 : ∀ x ∈ cs.dropWhile pyIsSpace, pyIsSpace x := by
      intro x hx
      exact List.dropWhile_eq_nil_iff.mp h1 x (List.mem_reverse.mpr hx)
    have hcs := List.takeWhile_append_dropWhile pyIsSpace cs
    rw [← hcs] at hc
    rcases List.mem_append.mp hc with hc1 | hc2
    · exact List.mem_takeWhile_imp hc1
    · exact h2 c hc2
  · intro h
    simp [stripWs, stripBoth, List.dropWhile_eq_nil_iff.mpr h]

theorem finalClean_all_space (R : List Char) (h : ∀ c ∈ R, pyIsSpace c) :
    stripWs (hyphenCut (stripWs (parenCut R))) = [] := by
  have hp : '(' ∉ R := fun hm => absurd (h '(' hm) (by decide)
  have h1 : parenCut R = R := by
    simpa [parenCut] using parenCutAux_no_paren R [] [] hp
  rw [h1, (stripWs_eq_nil_iff R).mpr h]
  rfl

/-- Claim C8 (amended): for a line beginning with an ordinal or bullet
marker, stripping the marker does not change the parser's output for the
line, provided the remainder does not itself begin with a marker — only
one marker of each kind is stripped per line, so stacked markers (see the
counterexample) break the equality.  `stripOrdinal L = R` (resp.
`stripBullet L = R` with no ordinal present) states that `L` begins with
the marker and `R` is the remainder. -/
theorem c8_marker_strip (L R : List Char)
    (h : stripOrdinal L = R ∨ (stripOrdinal L = L ∧ stripBullet L = R))
    (hR1 : stripOrdinal R = R) (hR2 : stripBullet R = R) :
    processLine L = processLine R := by
  by_cases hbL : ∀ c ∈ L, pyIsSpace c
  · rcases h with h | ⟨h1, h2⟩
    · rw [← h, stripOrdinal_all_space L hbL]
    · rw [← h2, stripBullet_all_space L hbL]
  · have hLne : ¬ (stripWs L).isEmpty = true := by
      rw [List.isEmpty_iff]
      exact fun he => hbL ((stripWs_eq_nil_iff L).mp he)
    have hcore : stripBullet (stripOrdinal L) = stripBullet R := by
      rcases h with h | ⟨h1, h2⟩
      · rw [h]
      · rw [h1, h2, hR2]
    by_cases hbR : ∀ c ∈ R, pyIsSpace c
    · have hRe : (stripWs R).isEmpty = true := by
        rw [List.isEmpty_iff]
        exact (stripWs_eq_nil_iff R).mpr hbR
      have hBR := stripBullet_all_space R hbR
      have hclL : cleanLine L = [] := by
        rw [cleanLine, hcore, hBR]
        exact finalClean_all_space R hbR
      rw [processLine, processLine, if_neg hLne, if_pos hRe, hclL]
      simp
    · have hRne : ¬ (stripWs R).isEmpty = true := by
        rw [List.isEmpty_iff]
        exact fun he => hbR ((stripWs_eq_nil_iff R).mp he)
      have hcl : cleanLine L = cleanLine R := by
        rw [cleanLine, cleanLine, hcore, hR1]
      rw [processLine, processLine, if_neg hLne, if_neg hRne, hcl]

/-- Witness for C8 at the bulleted line "- Java". -/
theorem c8_marker_strip_witness :
    processLine "- Java".toList = processLine "Java".toList :=
  c8_marker_strip "- Java".toList "Java".toList
    (Or.inr (by constructor <;> rfl)) (by rfl) (by rfl)

/-! ## Claim C9: output invariants of the Answer Line Parser -/

theorem dropWhile_idem (p : Char → Bool) (l : List Char) :
    (l.dropWhile p).dropWhile p = l.dropWhile p := by
  induction l with
  | nil => rfl
  | cons c t ih => by_cases h : p c <;> simp [List.dropWhile_cons, h, ih]

theorem dropWhile_eq_self_append (p : Char → Bool) (u v : List Char)
    (h : (u ++ v).dropWhile p = u ++ v) : u.dropWhile p = u := by
  cases u with
  | nil => rfl
  | cons c u' =>
    by_cases hp : p c
    · exfalso
      rw [List.cons_append, List.dropWhile_cons_of_pos hp] at h
      have hle := (List.dropWhile_sublist (l := u' ++ v) (p := p)).length_le
      rw [h] at hle
      simp only [List.length_cons, List.length_append] at hle
      omega
    · simp [List.dropWhile_cons_of_neg hp]

theorem stripWs_idem (cs : List Char) : stripWs (stripWs cs) = stripWs cs := by
  have hA : (cs.dropWhile pyIsSpace).dropWhile pyIsSpace =
      cs.dropWhile pyIsSpace := dropWhile_idem _ _
  set A := cs.dropWhile pyIsSpace with hAdef
  set B := A.reverse.dropWhile pyIsSpace with hBdef
  have hsplit : A = B.reverse ++ (A.reverse.takeWhile pyIsSpace).reverse := by
    rw [hBdef]
    conv_lhs => rw [← List.reverse_reverse A,
      ← List.takeWhile_append_dropWhile (p := pyIsSpace) (l := A.reverse)]
    rw [List.reverse_append]
  have h1 : B.reverse.dropWhile pyIsSpace = B.reverse :=
    dropWhile_eq_self_append _ _ _ (by rw [← hsplit]; exact hA)
  have h2 : B.dropWhile pyIsSpace = B := dropWhile_idem _ _
  show ((B.reverse.dropWhile pyIsSpace).reverse.dropWhile pyIsSpace).reverse =
    B.reverse
  rw [h1, List.reverse_reverse, h2]

theorem processLine_some (cs v : List Char) (h : processLine cs = some v) :
    v ≠ [] ∧ stripWs v = v := by
  rw [processLine] at h
  by_cases h1 : (stripWs cs).isEmpty
  · rw [if_pos h1] at h
    exact absurd h (by simp)
  · rw [if_neg h1] at h
    by_cases h2 : (cleanLine cs).isEmpty
    · rw [if_pos h2] at h
      exact absurd h (by simp)
    · rw [if_neg h2] at h
      have hv : cleanLine cs = v := Option.some.inj h
      constructor
      · rw [← hv]
        exact fun he => h2 (by rw [he]; rfl)
      · rw [← hv, cleanLine, stripWs_idem]

theorem splitOnC_ne_nil (sep : Char) (cs : List Char) : splitOnC sep cs ≠ [] := by
  cases cs with
  | nil => simp [splitOnC]
  | cons c t =>
    rw [splitOnC]
    by_cases h : c = sep
    · simp [h]
    · rcases he : splitOnC sep t with _ | ⟨hd, tl⟩ <;> simp [h, he]

theorem splitOnC_length (sep : Char) (cs : List Char) :
    (splitOnC sep cs).length = cs.count sep + 1 := by
  induction cs with
  | nil => simp [splitOnC]
  | cons c t ih =>
    by_cases h : c = sep
    · simp [splitOnC, h, ih, List.count_cons]
    · rcases he : splitOnC sep t with _ | ⟨hd, tl⟩
      · exact absurd he (splitOnC_ne_nil sep t)
      · rw [he] at ih
        simp only [splitOnC, if_neg h, he, List.length_cons, List.count_cons]
        simp only [List.length_cons] at ih
        have : ¬ c == sep := by simpa using h
        simp [this, ih]

theorem count_stripWs_le (c : Char) (cs : List Char) :
    (stripWs cs).count c ≤ cs.count c := by
  have t1 : ((cs.dropWhile pyIsSpace).reverse.dropWhile pyIsSpace).count c ≤
      (cs.dropWhile pyIsSpace).reverse.count c :=
    (List.dropWhile_sublist _).count_le c
  have t2 : (cs.dropWhile pyIsSpace).count c ≤ cs.count c :=
    (List.dropWhile_sublist _).count_le c
  calc (stripWs cs).count c
      = ((cs.dropWhile pyIsSpace).reverse.dropWhile pyIsSpace).count c := by
        rw [stripWs, stripBoth, List.count_reverse]
    _ ≤ (cs.dropWhile pyIsSpace).reverse.count c := t1
    _ = (cs.dropWhile pyIsSpace).count c := List.count_reverse _ _
    _ ≤ cs.count c := t2

/-- Claim C9: every candidate name emitted by the Answer Line Parser is a
non-empty string with no leading or trailing whitespace, and the number
of emitted names never exceeds the number of input lines. -/
theorem c9_parser_output_invariants (s : String) :
    (∀ n ∈ parse_llm_answer s, n ≠ "" ∧ stripWsStr n = n) ∧
    (parse_llm_answer s).length ≤ (splitOnC '\n' s.toList).length := by
  constructor
  · intro n hn
    simp only [parse_llm_answer, List.mem_map, List.mem_filterMap] at hn
    obtain ⟨v, ⟨line, _, hproc⟩, hv⟩ := hn
    obtain ⟨hne, hstr⟩ := processLine_some _ _ hproc
    constructor
    · rw [← hv]
      intro he
      exact hne (by simpa using congrArg String.toList he)
    · rw [← hv]
      show String.mk (stripWs (String.mk v).toList) = String.mk v
      rw [show (String.mk v).toList = v from rfl, hstr]
  · calc (parse_llm_answer s).length
        = ((splitOnC '\n' (stripWs s.toList)).filterMap processLine).length := by
          simp [parse_llm_answer]
      _ ≤ (splitOnC '\n' (stripWs s.toList)).length :=
          List.length_filterMap_le _ _
      _ = (stripWs s.toList).count '\n' + 1 := splitOnC_length _ _
      _ ≤ s.toList.count '\n' + 1 :=
          Nat.add_le_add_right (count_stripWs_le _ _) 1
      _ = (splitOnC '\n' s.toList).length := (splitOnC_length _ _).symm

/-- Witness for C9 at a two-line answer. -/
theorem c9_parser_output_invariants_witness :
    ("Java" ≠ "" ∧ stripWsStr "Java" = "Java") ∧
    (parse_llm_answer "1. Java \n- C ").length ≤
      (splitOnC '\n' "1. Java \n- C ".toList).length :=
  ⟨(c9_parser_output_invariants "1. Java \n- C ").1 "Java" (by decide),
   (c9_parser_output_invariants "1. Java \n- C ").2⟩

/-! ## Claim C6: the semicolon-pseudo-JSON round trip -/

theorem wfCat_spec (e : String) (h : wfCat e = true) :
    e.toList ≠ [] ∧ (∀ c ∈ e.toList, ¬ c = ';' ∧ ¬ c = ',') ∧
    (∀ c, e.toList.head? = some c → strippable c = false) ∧
    (∀ c, e.toList.getLast? = some c → strippable c = false) := by
  simp only [wfCat, Bool.and_eq_true] at h
  obtain ⟨⟨hall, hh⟩, hl⟩ := h
  refine ⟨?_, ?_, ?_, ?_⟩
  · intro he
    rw [he] at hh
    simp at hh
  · intro c hc
    have := List.all_eq_true.mp hall c hc
    constructor <;> intro e' <;> subst e' <;> simp at this
  · intro c hc
    rw [hc] at hh
    simpa using hh
  · intro c hc
    rw [hc] at hl
    simpa using hl

theorem stripBoth_sandwich (p : Char → Bool) (pre mid post : List Char)
    (hpre : ∀ c ∈ pre, p c) (hpost : ∀ c ∈ post, p c)
    (hne : mid ≠ [])
    (hhead : ∀ c, mid.head? = some c → p c = false)
    (hlast : ∀ c, mid.getLast? = some c → p c = false) :
    stripBoth p (pre ++ (mid ++ post)) = mid := by
  have hstep1 : (pre ++ (mid ++ post)).dropWhile p = mid ++ post := by
    rw [List.dropWhile_append_of_pos hpre]
    obtain ⟨m0, mrest, rfl⟩ := List.exists_cons_of_ne_nil hne
    have h0 : ¬ p m0 = true := by simp [hhead m0 rfl]
    rw [List.cons_append, List.dropWhile_cons_of_neg h0]
  have hstep2 : ((mid ++ post).reverse).dropWhile p = mid.reverse := by
    rw [List.reverse_append, List.dropWhile_append_of_pos
      (fun c hc => hpost c (List.mem_reverse.mp hc))]
    have hne' : mid.reverse ≠ [] := by simpa using hne
    obtain ⟨lc, w, hw⟩ := List.exists_cons_of_ne_nil hne'
    have hlc : p lc = false := by
      apply hlast
      rw [← List.head?_reverse, hw]
      rfl
    rw [hw, List.dropWhile_cons_of_neg (by simp [hlc])]
  rw [stripBoth, hstep1, hstep2, List.reverse_reverse]

theorem head?_append_left {x : List Char} (y : List Char) (hne : x ≠ []) :
    (x ++ y).head? = x.head? := by
  obtain ⟨c, t, rfl⟩ := List.exists_cons_of_ne_nil hne
  rfl

theorem contains_eq_false_of_not_mem {x : List Char} {a : Char} (h : a ∉ x) :
    x.contains a = false := by
  simp [List.contains, h]

theorem quote_mem_cell {c : Char} (h : c ∈ quoteSet) : c ∈ cellStripSet := by
  rcases (by simpa [quoteSet] using h : c = '\'' ∨ c = '"') with rfl | rfl
  · simp [cellStripSet]
  · simp [cellStripSet]

theorem quote_not_space {c : Char} (h : c ∈ quoteSet) : pyIsSpace c = false := by
  rcases (by simpa [quoteSet] using h : c = '\'' ∨ c = '"') with rfl | rfl
  · rfl
  · rfl

theorem strippable_false_parts (c : Char) (h : strippable c = false) :
    decide (c ∈ cellStripSet) = false ∧ pyIsSpace c = false ∧
    decide (c ∈ quoteSet) = false := by
  have h' : decide (c ∈ cellStripSet) = false ∧ pyIsSpace c = false := by
    simpa [strippable] using h
  refine ⟨h'.1, h'.2, ?_⟩
  simp only [decide_eq_false_iff_not] at h' ⊢
  exact fun hq => h'.1 (quote_mem_cell hq)

theorem getLast?_append_of_ne_nil (x : List Char) {y : List Char}
    (hy : y ≠ []) : (x ++ y).getLast? = y.getLast? := by
  obtain ⟨d, hd⟩ := Option.isSome_iff_exists.mp (List.getLast?_isSome.mpr hy)
  rw [List.getLast?_append, hd]
  simp [Option.or]

/-- The cleanup applied to one skeleton of a split part: optional leading
whitespace, optional wrapping quotes, and the element itself survive
`item.strip().strip("'\"")` exactly as the element. -/
theorem partClean_general (e : String) (he : wfCat e = true)
    (w a b : List Char)
    (hw : ∀ c ∈ w, pyIsSpace c)
    (ha : ∀ c ∈ a, c ∈ quoteSet) (hb : ∀ c ∈ b, c ∈ quoteSet) :
    partClean (w ++ (a ++ (e.toList ++ b))) = e := by
  obtain ⟨hne, _, hhead, hlast⟩ := wfCat_spec e he
  have hmidne : a ++ (e.toList ++ b) ≠ [] := by
    intro hx
    rcases List.append_eq_nil.mp hx with ⟨_, hx2⟩
    rcases List.append_eq_nil.mp hx2 with ⟨hx3, _⟩
    exact hne hx3
  have hmidhead : ∀ c, (a ++ (e.toList ++ b)).head? = some c →
      pyIsSpace c = false := by
    intro c hc
    cases a with
    | nil =>
      rw [List.nil_append, head?_append_left b hne] at hc
      exact (strippable_false_parts c (hhead c hc)).2.1
    | cons a0 arest =>
      have hca : c = a0 := by
        rw [List.cons_append] at hc
        exact (Option.some.inj hc).symm
      subst hca
      exact quote_not_space (ha c (by simp))
  have hmidlast : ∀ c, (a ++ (e.toList ++ b)).getLast? = some c →
      pyIsSpace c = false := by
    intro c hc
    cases b with
    | nil =>
      rw [List.append_nil, getLast?_append_of_ne_nil a hne] at hc
      exact (strippable_false_parts c (hlast c hc)).2.1
    | cons b0 brest =>
      rw [getLast?_append_of_ne_nil a (by simp),
        getLast?_append_of_ne_nil e.toList (by simp)] at hc
      exact quote_not_space (hb c (List.mem_of_getLast?_eq_some hc))
  have hws : stripWs (w ++ (a ++ (e.toList ++ b))) = a ++ (e.toList ++ b) := by
    have := stripBoth_sandwich pyIsSpace w (a ++ (e.toList ++ b)) [] hw
      (by simp) hmidne hmidhead hmidlast
    simpa [stripWs] using this
  have hq : stripBoth (fun c => decide (c ∈ quoteSet)) (a ++ (e.toList ++ b)) =
      e.toList := by
    refine stripBoth_sandwich _ a e.toList b
      (fun c hc => by simpa using ha c hc)
      (fun c hc => by simpa using hb c hc) hne ?_ ?_
    · exact fun c hc => (strippable_false_parts c (hhead c hc)).2.2
    · exact fun c hc => (strippable_false_parts c (hlast c hc)).2.2
  rw [partClean, hws, hq]
  rfl

theorem jparseAtom_quote (t : List Char) : jparseAtom ('\'' :: t) = none := by
  rw [jparseAtom]
  rw [if_neg (by simp), if_neg (by simp), if_neg (by simp)]
  simp only [jparseNum]
  all_goals simp

theorem jparseVal_quote (t : List Char) :
    ∀ f, jparseVal f ('\'' :: t) = none := by
  intro f
  cases f with
  | zero => rfl
  | succ f' =>
    rw [jparseVal]
    have hskip : jskipWs ('\'' :: t) = '\'' :: t := by
      rw [jskipWs, List.dropWhile_cons_of_neg (by decide)]
    rw [hskip]
    simp [jparseAtom_quote]

theorem jparseItems_quote (t : List Char) :
    ∀ f, jparseItems f ('\'' :: t) = none := by
  intro f
  cases f with
  | zero => rfl
  | succ f' =>
    rw [jparseItems, jparseVal_quote t f']

theorem jparseVal_bracket_quote (t : List Char) :
    ∀ f, jparseVal f ('[' :: '\'' :: t) = none := by
  intro f
  cases f with
  | zero => rfl
  | succ f' =>
    rw [jparseVal]
    have hskip : jskipWs ('[' :: '\'' :: t) = '[' :: '\'' :: t := by
      rw [jskipWs, List.dropWhile_cons_of_neg (by decide)]
    rw [hskip]
    have hskip2 : jskipWs ('\'' :: t) = '\'' :: t := by
      rw [jskipWs, List.dropWhile_cons_of_neg (by decide)]
    simp [hskip2, jparseItems_quote]

theorem jsonLoads_bracket_quote (t : List Char) :
    jsonLoads (String.mk ('[' :: '\'' :: t)) = .error "Expecting value" := by
  rw [jsonLoads]
  rw [show (String.mk ('[' :: '\'' :: t)).toList = '[' :: '\'' :: t from rfl]
  rw [jparseVal_bracket_quote]

theorem splitOnC_not_mem (sep : Char) (x : List Char) (h : sep ∉ x) :
    splitOnC sep x = [x] := by
  induction x with
  | nil => rfl
  | cons c t ih =>
    have hc : ¬ c = sep := fun e => h (by rw [e]; exact List.mem_cons_self _ _)
    have h' : sep ∉ t := fun hm => h (List.mem_cons_of_mem _ hm)
    rw [splitOnC, if_neg hc, ih h']

theorem splitOnC_append_sep (sep : Char) (a b : List Char) (h : sep ∉ a) :
    splitOnC sep (a ++ sep :: b) = a :: splitOnC sep b := by
  induction a with
  | nil => simp [splitOnC]
  | cons c a' ih =>
    have hc : ¬ c = sep := fun e => h (by rw [e]; exact List.mem_cons_self _ _)
    have h' : sep ∉ a' := fun hm => h (List.mem_cons_of_mem _ hm)
    rw [List.cons_append, splitOnC, if_neg hc, ih h']

theorem semi_not_mem (e : String) (he : wfCat e = true) : ';' ∉ e.toList :=
  fun hm => ((wfCat_spec e he).2.1 ';' hm).1 rfl

theorem comma_not_mem (e : String) (he : wfCat e = true) : ',' ∉ e.toList :=
  fun hm => ((wfCat_spec e he).2.1 ',' hm).2 rfl

theorem ttMid_cons_cons (e r : String) (rs : List String) :
    ttMid (e :: r :: rs) =
      e.toList ++ '\'' :: ';' :: ' ' :: '\'' :: ttMid (r :: rs) := rfl

theorem ttMid_ne_nil (e : String) (rest : List String) (he : wfCat e = true) :
    ttMid (e :: rest) ≠ [] := by
  cases rest with
  | nil => exact (wfCat_spec e he).1
  | cons r rs =>
    rw [ttMid_cons_cons]
    intro hx
    rcases List.append_eq_nil.mp hx with ⟨_, hx2⟩
    exact absurd hx2 (by simp)

theorem ttMid_head_not_strip (e : String) (rest : List String)
    (he : wfCat e = true) :
    ∀ c, (ttMid (e :: rest)).head? = some c → strippable c = false := by
  obtain ⟨hne, _, hhead, _⟩ := wfCat_spec e he
  intro c hc
  cases rest with
  | nil => exact hhead c hc
  | cons r rs =>
    rw [ttMid_cons_cons, head?_append_left _ hne] at hc
    exact hhead c hc

theorem ttMid_last_not_strip (l : List String) :
    ∀ e : String, (∀ x ∈ e :: l, wfCat x = true) →
    ∀ c, (ttMid (e :: l)).getLast? = some c → strippable c = false := by
  induction l with
  | nil =>
    intro e h c hc
    exact (wfCat_spec e (h e (by simp))).2.2.2 c hc
  | cons r rs ih =>
    intro e h c hc
    rw [ttMid_cons_cons,
      getLast?_append_of_ne_nil _ (by simp),
      show ('\'' :: ';' :: ' ' :: '\'' :: ttMid (r :: rs) : List Char) =
        ['\'', ';', ' ', '\''] ++ ttMid (r :: rs) from rfl,
      getLast?_append_of_ne_nil _ (ttMid_ne_nil r rs (h r (by simp)))] at hc
    exact ih r (fun x hx => h x (List.mem_cons_of_mem _ hx)) c hc

theorem partClean_shapeA (e : String) (he : wfCat e = true) :
    partClean (e.toList ++ ['\'']) = e := by
  have := partClean_general e he [] [] ['\''] (by decide) (by decide) (by decide)
  simpa using this

theorem partClean_shapeB (e : String) (he : wfCat e = true) :
    partClean (' ' :: '\'' :: (e.toList ++ ['\''])) = e := by
  have := partClean_general e he [' '] ['\''] ['\''] (by decide) (by decide)
    (by decide)
  simpa using this

theorem partClean_shapeC (e : String) (he : wfCat e = true) :
    partClean (' ' :: '\'' :: e.toList) = e := by
  have := partClean_general e he [' '] ['\''] [] (by decide) (by decide)
    (by decide)
  simpa using this

theorem ttTail_parts (rs : List String) : ∀ r : String,
    (∀ x ∈ r :: rs, wfCat x = true) →
    (splitOnC ';' (' ' :: '\'' :: ttMid (r :: rs))).map partClean = r :: rs := by
  induction rs with
  | nil =>
    intro r h
    have hr := h r (by simp)
    have hnm : ';' ∉ (' ' :: '\'' :: ttMid [r] : List Char) := by
      intro hm
      rcases List.mem_cons.mp hm with h1 | hm
      · exact absurd h1 (by decide)
      rcases List.mem_cons.mp hm with h1 | hm
      · exact absurd h1 (by decide)
      exact semi_not_mem r hr hm
    rw [splitOnC_not_mem _ _ hnm, List.map_cons, List.map_nil]
    rw [show (ttMid [r] : List Char) = r.toList from rfl, partClean_shapeC r hr]
  | cons r2 rs' ih =>
    intro r h
    have hr := h r (by simp)
    have h' : ∀ x ∈ r2 :: rs', wfCat x = true :=
      fun x hx => h x (List.mem_cons_of_mem _ hx)
    have hsh : (' ' :: '\'' :: ttMid (r :: r2 :: rs') : List Char) =
        (' ' :: '\'' :: (r.toList ++ ['\''])) ++
          ';' :: (' ' :: '\'' :: ttMid (r2 :: rs')) := by
      rw [ttMid_cons_cons]
      simp
    have hnm : ';' ∉ (' ' :: '\'' :: (r.toList ++ ['\'']) : List Char) := by
      intro hm
      rcases List.mem_cons.mp hm with h1 | hm
      · exact absurd h1 (by decide)
      rcases List.mem_cons.mp hm with h1 | hm
      · exact absurd h1 (by decide)
      rcases List.mem_append.mp hm with h1 | h1
      · exact semi_not_mem r hr h1
      · exact absurd h1 (by decide)
    rw [hsh, splitOnC_append_sep _ _ _ hnm, List.map_cons,
      partClean_shapeB r hr, ih r2 h']

theorem ttMid_parts (e r2 : String) (rs : List String)
    (h : ∀ x ∈ e :: r2 :: rs, wfCat x = true) :
    (splitOnC ';' (ttMid (e :: r2 :: rs))).map partClean = e :: r2 :: rs := by
  have he := h e (by simp)
  have h' : ∀ x ∈ r2 :: rs, wfCat x = true :=
    fun x hx => h x (List.mem_cons_of_mem _ hx)
  have hsh : ttMid (e :: r2 :: rs) =
      (e.toList ++ ['\'']) ++ ';' :: (' ' :: '\'' :: ttMid (r2 :: rs)) := by
    rw [ttMid_cons_cons]
    simp
  have hnm : ';' ∉ (e.toList ++ ['\''] : List Char) := by
    intro hm
    rcases List.mem_append.mp hm with h1 | h1
    · exact semi_not_mem e he h1
    · exact absurd h1 (by decide)
  rw [hsh, splitOnC_append_sep _ _ _ hnm, List.map_cons,
    partClean_shapeA e he, ttTail_parts rs r2 h']

/-- Claim C6: for every well-formed list of category strings, normalizing
its semicolon-pseudo-JSON stringification yields exactly the original
ordered sequence — the JSON attempt fails on the single-quoted encoding
and the fallback splits the cell on semicolons and trims quotes and
whitespace, recovering each element. -/
theorem c6_roundtrip (l : List String) (h : ∀ e ∈ l, wfCat e = true) :
    parse_test_type (.vStr (stringifyTT l)) = .ok (.vList (l.map Val.vStr)) := by
  cases l with
  | nil => rfl
  | cons e rest =>
    have he := h e (by simp)
    obtain ⟨hne, _, _, _⟩ := wfCat_spec e he
    have hpt : parse_test_type (.vStr (stringifyTT (e :: rest))) =
        .ok (parseTTstr (stringifyTT (e :: rest))) := rfl
    rw [hpt]
    have hchars : (stringifyTT (e :: rest)).toList =
        '[' :: '\'' :: (ttMid (e :: rest) ++ ['\'', ']']) := rfl
    have hjson : jsonLoads
        (String.mk (replaceSemi (stringifyTT (e :: rest)).toList)) =
        .error "Expecting value" := by
      rw [show replaceSemi (stringifyTT (e :: rest)).toList =
            '[' :: '\'' :: replaceSemi (ttMid (e :: rest) ++ ['\'', ']'])
          from by rw [hchars]; rfl]
      exact jsonLoads_bracket_quote _
    have hcleaned : stripBoth (fun c => decide (c ∈ cellStripSet))
        (stringifyTT (e :: rest)).toList = ttMid (e :: rest) := by
      rw [hchars]
      have := stripBoth_sandwich (fun c => decide (c ∈ cellStripSet))
        ['[', '\''] (ttMid (e :: rest)) ['\'', ']'] (by decide) (by decide)
        (ttMid_ne_nil e rest he)
        (fun c hc =>
          (strippable_false_parts c (ttMid_head_not_strip e rest he c hc)).1)
        (fun c hc =>
          (strippable_false_parts c (ttMid_last_not_strip rest e h c hc)).1)
      simpa using this
    simp only [parseTTstr, hjson, hcleaned]
    cases rest with
    | nil =>
      have hns : (ttMid [e]).contains ';' = false :=
        contains_eq_false_of_not_mem (semi_not_mem e he)
      have hnc : (ttMid [e]).contains ',' = false :=
        contains_eq_false_of_not_mem (comma_not_mem e he)
      have hni : ¬ (ttMid [e]).isEmpty = true :=
        fun hx => hne (List.isEmpty_iff.mp hx)
      rw [hns, hnc]
      simp only [Bool.false_eq_true, if_false, if_neg hni]
      rfl
    | cons r2 rs =>
      have hsm : (ttMid (e :: r2 :: rs)).contains ';' = true := by
        have hm : ';' ∈ ttMid (e :: r2 :: rs) := by
          rw [ttMid_cons_cons]
          exact List.mem_append.mpr (Or.inr (by simp))
        simp [List.contains, hm]
      rw [hsm]
      simp only [if_true]
      rw [show (fun part => Val.vStr (partClean part)) =
            (Val.vStr ∘ partClean) from rfl,
        ← List.map_map, ttMid_parts e r2 rs h]

/-- Witness for C6 at the spec's own example cell. -/
theorem c6_roundtrip_witness :
    parse_test_type
        (.vStr (stringifyTT ["Knowledge & Skills", "Personality & Behavior"])) =
      .ok (.vList (["Knowledge & Skills", "Personality & Behavior"].map
        Val.vStr)) :=
  c6_roundtrip ["Knowledge & Skills", "Personality & Behavior"] (by decide)

end SHL
